import Mathlib

set_option maxRecDepth 100000

/-!
Shallow embedding of the EHR blockchain ledger from
`src/utils/blockchain.py` (classes `Block` and `Blockchain`) together with
the snapshot helpers `safe_load_pickle` / `safe_save_pickle` from
`src/streamlit_app.py`.

Python dictionaries are modelled as insertion-ordered association lists
(`Record`); block payload entries are either a bare string (the genesis
sentinel) or a dict (`Entry`).  SHA-256 over the canonical JSON
serialization is abstracted as a parameter `H : HashInput → String`: every
theorem below is proved for an arbitrary digest function, and concrete
witnesses instantiate `H` with an executable injective encoding `Hc`.
Timestamps (`time.time()` / `datetime.now()` strings) are passed to the
operations as explicit parameters, mirroring the ambient clock.
The proof-of-work loop `Block.mine_block`, unbounded in Python, is given
explicit fuel and returns `Option`.
-/

namespace EHR

/-- A Python value stored in a record dict: a string or an integer. -/
inductive Value where
  | s (v : String)
  | n (v : Nat)
deriving DecidableEq, Repr

/-- A Python dict as an insertion-ordered association list. -/
abbrev Record := List (String × Value)

/-- `record.get(k)`: the value at the first binding of `k`, if any. -/
def dictGet (r : Record) (k : String) : Option Value :=
  (r.find? (fun p => p.1 == k)).map (·.2)

/-- `record[k] = v`: overwrite the binding of `k` in place (Python keeps
the original insertion position), or append a new binding at the end. -/
def dictSet (r : Record) (k : String) (v : Value) : Record :=
  if r.any (fun p => p.1 == k) then
    r.map (fun p => if p.1 == k then (k, v) else p)
  else r ++ [(k, v)]

/-- An element of a block's `records` list: the genesis block stores a bare
string sentinel, mined blocks store dicts. -/
inductive Entry where
  | txt (s : String)
  | dict (r : Record)
deriving DecidableEq, Repr

/-- The five fields serialized by `Block.calculate_hash` (sorted-key JSON
of index, timestamp, records, previous_hash, nonce). -/
structure HashInput where
  index : Nat
  timestamp : Nat
  records : List Entry
  previous_hash : String
  nonce : Nat
deriving DecidableEq, Repr

/-- `Block`: index, timestamp, records, previous_hash, nonce, hash. -/
structure Block where
  index : Nat
  timestamp : Nat
  records : List Entry
  previous_hash : String
  nonce : Nat
  hash : String
deriving DecidableEq, Repr

/-- The serialization input of a block, as read by `calculate_hash`. -/
def Block.hashInput (b : Block) : HashInput :=
  ⟨b.index, b.timestamp, b.records, b.previous_hash, b.nonce⟩

/-- `Block.__init__`: nonce starts at 0 and `hash` is set to
`calculate_hash()` of the freshly assigned fields. -/
def Block.mkNew (H : HashInput → String) (index timestamp : Nat)
    (records : List Entry) (previous_hash : String) : Block :=
  let b : Block := ⟨index, timestamp, records, previous_hash, 0, ""⟩
  { b with hash := H b.hashInput }

/-- `self.hash[:difficulty] == '0' * difficulty`: the proof-of-work test
of the mining loop. -/
def powOk (difficulty : Nat) (h : String) : Bool :=
  h.take difficulty == String.mk (List.replicate difficulty '0')

/-- `Block.mine_block(difficulty)`: repeatedly increment `nonce` and
recompute `hash` until the target is met.  The Python loop is unbounded;
`fuel` bounds the number of increments, `none` models non-termination
within the allotted fuel. -/
def mineBlock (H : HashInput → String) (difficulty : Nat) :
    Nat → Block → Option Block
  | 0, b => if powOk difficulty b.hash then some b else none
  | fuel + 1, b =>
    if powOk difficulty b.hash then some b
    else
      let b' : Block := { b with nonce := b.nonce + 1 }
      mineBlock H difficulty fuel { b' with hash := H b'.hashInput }

/-- `Blockchain`: chain, difficulty, pending_records. -/
structure Blockchain where
  chain : List Block
  difficulty : Nat
  pending_records : List Record
deriving DecidableEq, Repr

/-- The genesis payload `["Genesis Block - EHR Blockchain System"]`. -/
def genesisRecords : List Entry :=
  [Entry.txt "Genesis Block - EHR Blockchain System"]

/-- `Blockchain.__init__` followed by `add_genesis_block`: difficulty 2,
empty pending queue, one mined genesis block with `previous_hash = "0"`.
`ts` is the `time.time()` reading, `fuel` bounds the mining loop. -/
def Blockchain.init (H : HashInput → String) (ts fuel : Nat) :
    Option Blockchain :=
  (mineBlock H 2 fuel (Block.mkNew H 0 ts genesisRecords "0")).map
    (fun g => ⟨[g], 2, []⟩)

/-- `Blockchain.add_record(record)`: stamp `record['timestamp']` with the
current wall-clock string `now`, append to `pending_records`, return the
new queue length.  No validation is performed. -/
def addRecord (bc : Blockchain) (record : Record) (now : String) :
    Blockchain × Nat :=
  let r := dictSet record "timestamp" (Value.s now)
  let bc' := { bc with pending_records := bc.pending_records ++ [r] }
  (bc', bc'.pending_records.length)

/-- `Blockchain.mine_pending_records`: `False` (state unchanged) on an
empty queue; otherwise build a block at `index = len(chain)` over a copy
of the queue linked to the tip, mine it, append it, clear the queue.
`none` models mining-fuel exhaustion (or the `IndexError` of `chain[-1]`
on an empty chain, unreachable from the constructor). -/
def minePendingRecords (H : HashInput → String) (fuel ts : Nat)
    (bc : Blockchain) : Option (Blockchain × Bool) :=
  if bc.pending_records.isEmpty then some (bc, false)
  else
    match bc.chain.getLast? with
    | none => none
    | some tip =>
      let candidate := Block.mkNew H bc.chain.length ts
        (bc.pending_records.map Entry.dict) tip.hash
      match mineBlock H bc.difficulty fuel candidate with
      | none => none
      | some nb =>
        some ({ bc with chain := bc.chain ++ [nb], pending_records := [] },
          true)

/-- One iteration body of the `is_chain_valid` loop at a pair
(previous_block, current_block): recomputed-hash check then link check. -/
def chainStepOk (H : HashInput → String) (prev cur : Block) : Bool :=
  (cur.hash == H cur.hashInput) && (cur.previous_hash == prev.hash)

/-- The `for i in range(1, len(chain))` loop of `is_chain_valid`,
expressed on consecutive pairs of the list. -/
def validFrom (H : HashInput → String) : List Block → Bool
  | [] => true
  | [_] => true
  | a :: b :: rest => chainStepOk H a b && validFrom H (b :: rest)

/-- `Blockchain.is_chain_valid()`. -/
def isChainValid (H : HashInput → String) (bc : Blockchain) : Bool :=
  validFrom H bc.chain

/-- The decoration applied by the query methods: `record.copy()` plus
`block_index`, `block_hash`, `block_timestamp` keys from the block. -/
def decorate (b : Block) (r : Record) : Record :=
  dictSet (dictSet (dictSet r "block_index" (Value.n b.index))
    "block_hash" (Value.s b.hash)) "block_timestamp" (Value.n b.timestamp)

/-- `Blockchain.get_records_for_patient(patient_id)`: scan every block in
chain order, keep dict entries whose `patient_id` equals the query,
decorate each with its block's provenance. -/
def getRecordsForPatient (bc : Blockchain) (pid : Value) : List Record :=
  (bc.chain.map (fun b =>
    b.records.filterMap (fun e =>
      match e with
      | Entry.txt _ => none
      | Entry.dict r =>
        if dictGet r "patient_id" == some pid then some (decorate b r)
        else none))).flatten

/-- `Blockchain.get_records_for_doctor(doctor_id)`: symmetric on
`doctor_id`. -/
def getRecordsForDoctor (bc : Blockchain) (did : Value) : List Record :=
  (bc.chain.map (fun b =>
    b.records.filterMap (fun e =>
      match e with
      | Entry.txt _ => none
      | Entry.dict r =>
        if dictGet r "doctor_id" == some did then some (decorate b r)
        else none))).flatten

/-- An executable concrete digest used by witnesses: injective on the
hash input and always starting with two zeros, so difficulty-2 mining
succeeds with fuel 0. -/
def encValue : Value → String
  | Value.s v => "s:" ++ v
  | Value.n v => "n:" ++ toString v

/-- Encoding of a record for `Hc`. -/
def encRecord (r : Record) : String :=
  String.join (r.map (fun p => "<" ++ p.1 ++ "=" ++ encValue p.2 ++ ">"))

/-- Encoding of an entry for `Hc`. -/
def encEntry : Entry → String
  | Entry.txt s => "t:" ++ s
  | Entry.dict r => "d:" ++ encRecord r

/-- The concrete digest function for witnesses. -/
def Hc (i : HashInput) : String :=
  "00|" ++ toString i.index ++ "|" ++ toString i.timestamp ++ "|"
    ++ String.join (i.records.map encEntry) ++ "|" ++ i.previous_hash
    ++ "|" ++ toString i.nonce

/-! ### Snapshot persistence model (§ `save`/`load` and the safe helpers)

The file system is a finite map from paths to file contents.  A pickle
file is either a complete snapshot of a `Blockchain`, an empty file,
truncated bytes (pickle raises `EOFError`), or garbage bytes (pickle
raises `UnpicklingError`).  `pickle.dump` may fail mid-write; the boolean
`dumpOk` selects that branch, and a failed dump leaves truncated bytes in
whatever file was open for writing. -/

/-- Contents of a file on disk, as seen by `pickle.load`. -/
inductive FileContent where
  | emptyFile
  | truncated
  | garbage
  | snapshot (bc : Blockchain)
deriving DecidableEq, Repr

/-- A file system: bindings from path to content; a missing binding is a
missing file. -/
abbrev Fs := List (String × FileContent)

/-- Look up a path. -/
def fsGet (fs : Fs) (p : String) : Option FileContent :=
  (fs.find? (fun q => q.1 == p)).map (·.2)

/-- Write (create or overwrite) a path. -/
def fsSet (fs : Fs) (p : String) (c : FileContent) : Fs :=
  (p, c) :: fs.filter (fun q => q.1 != p)

/-- `os.remove`. -/
def fsRemove (fs : Fs) (p : String) : Fs :=
  fs.filter (fun q => q.1 != p)

/-- `os.rename` / `os.replace`: move the content at `src` to `dst`. -/
def fsRename (fs : Fs) (src dst : String) : Fs :=
  match fsGet fs src with
  | none => fs
  | some c => fsSet (fsRemove fs src) dst c

/-- The hard-coded snapshot path of `Blockchain.save` / `Blockchain.load`. -/
def canonicalPath : String := "data/blockchain.pkl"

/-- `Blockchain.save`: open `data/blockchain.pkl` for writing and
`pickle.dump` the chain into it directly — no temporary file.  A failing
dump raises out of the method and leaves truncated bytes at the canonical
path; the Bool reports whether the dump ran to completion. -/
def savePy (bc : Blockchain) (dumpOk : Bool) (fs : Fs) : Fs × Bool :=
  if dumpOk then (fsSet fs canonicalPath (FileContent.snapshot bc), true)
  else (fsSet fs canonicalPath FileContent.truncated, false)

/-- Outcome of `Blockchain.load`: a deserialized chain, the
`Blockchain()` fallback (a fresh genesis-only chain), or an uncaught
exception propagating to the caller. -/
inductive LoadResult where
  | ok (bc : Blockchain)
  | freshChain
  | raisedUnpicklingError
deriving DecidableEq, Repr

/-- `Blockchain.load`: `pickle.load` from the canonical path, catching
only `FileNotFoundError` and `EOFError` (both answered by a fresh
`Blockchain()`); an `UnpicklingError` on garbage bytes is not caught.
The file system is never modified. -/
def loadPy (fs : Fs) : LoadResult :=
  match fsGet fs canonicalPath with
  | none => LoadResult.freshChain
  | some FileContent.emptyFile => LoadResult.freshChain
  | some FileContent.truncated => LoadResult.freshChain
  | some FileContent.garbage => LoadResult.raisedUnpicklingError
  | some (FileContent.snapshot bc) => LoadResult.ok bc

/-- Outcome of `safe_load_pickle`: the deserialized value or the
caller-supplied default.  The function catches every exception. -/
inductive SafeLoadResult where
  | loaded (bc : Blockchain)
  | defaultValue
deriving DecidableEq, Repr

/-- `safe_load_pickle(file_path, default_value)` from
`src/streamlit_app.py`: missing or empty file yields the default;
`pickle.UnpicklingError` renames the file to the timestamped backup path
`f"{file_path}.{int(time.time())}.bak"` and yields the default; every
other failure (e.g. `EOFError` on truncated bytes) falls into the generic
`except Exception` branch, yielding the default with no backup. -/
def safeLoadPickle (fs : Fs) (path : String) (now : Nat) :
    SafeLoadResult × Fs :=
  match fsGet fs path with
  | none => (SafeLoadResult.defaultValue, fs)
  | some FileContent.emptyFile => (SafeLoadResult.defaultValue, fs)
  | some FileContent.garbage =>
    (SafeLoadResult.defaultValue,
      fsRename fs path (path ++ "." ++ toString now ++ ".bak"))
  | some FileContent.truncated => (SafeLoadResult.defaultValue, fs)
  | some (FileContent.snapshot bc) => (SafeLoadResult.loaded bc, fs)

/-- `safe_save_pickle(data, file_path)` from `src/streamlit_app.py`:
dump into `f"{file_path}.temp"` first, then `os.replace`/`os.rename` it
over the target; on a failed dump, remove the temporary file and report
`False`, leaving the target untouched. -/
def safeSavePickle (bc : Blockchain) (dumpOk : Bool) (fs : Fs)
    (path : String) : Fs × Bool :=
  let temp := path ++ ".temp"
  if dumpOk then
    let fs1 := fsSet fs temp (FileContent.snapshot bc)
    (fsRename fs1 temp path, true)
  else
    let fs1 := fsSet fs temp FileContent.truncated
    (fsRemove fs1 temp, false)

/-! ### Reference-semantics model (Python object identity)

`add_record` mutates the very dict object the caller passed in and
appends that object — not a copy — to `pending_records`;
`mine_pending_records` copies only the list (`self.pending_records.copy()`),
so the block's `records` list holds the same dict objects.  To state this
aliasing, records live in an explicit heap of dict objects and the queue
and blocks hold addresses. -/

/-- An address of a dict object. -/
abbrev Addr := Nat

/-- The heap of dict objects, addressed by position. -/
abbrev Heap := List Record

/-- Dereference an address (unallocated addresses read as `[]`). -/
def heapGet (h : Heap) (a : Addr) : Record := h.getD a []

/-- Mutate the object at an address in place. -/
def heapSet (h : Heap) (a : Addr) (r : Record) : Heap := h.set a r

/-- A block whose `records` list holds references to dict objects. -/
structure BlockRef where
  index : Nat
  timestamp : Nat
  records : List Addr
  previous_hash : String
  nonce : Nat
  hash : String
deriving DecidableEq, Repr

/-- `calculate_hash` under reference semantics: serialization reads the
dict contents through the heap at call time. -/
def BlockRef.hashInput (heap : Heap) (b : BlockRef) : HashInput :=
  ⟨b.index, b.timestamp, b.records.map (fun a => Entry.dict (heapGet heap a)),
    b.previous_hash, b.nonce⟩

/-- `Block.__init__` under reference semantics. -/
def BlockRef.mkNew (H : HashInput → String) (heap : Heap)
    (index timestamp : Nat) (records : List Addr)
    (previous_hash : String) : BlockRef :=
  let b : BlockRef := ⟨index, timestamp, records, previous_hash, 0, ""⟩
  { b with hash := H (b.hashInput heap) }

/-- `Block.mine_block` under reference semantics (the heap does not
change during the loop). -/
def mineBlockRef (H : HashInput → String) (heap : Heap) (difficulty : Nat) :
    Nat → BlockRef → Option BlockRef
  | 0, b => if powOk difficulty b.hash then some b else none
  | fuel + 1, b =>
    if powOk difficulty b.hash then some b
    else
      let b' : BlockRef := { b with nonce := b.nonce + 1 }
      mineBlockRef H heap difficulty fuel
        { b' with hash := H (b'.hashInput heap) }

/-- `Blockchain` under reference semantics: the pending queue holds
references to the caller's dict objects. -/
structure BlockchainRef where
  chain : List BlockRef
  difficulty : Nat
  pending_records : List Addr
deriving DecidableEq, Repr

/-- `add_record` under reference semantics: set `record['timestamp']` on
the object at `a` (mutating it in place, overwriting any existing value),
append the address `a` itself to the queue, return the new length. -/
def addRecordRef (heap : Heap) (bc : BlockchainRef) (a : Addr)
    (now : String) : Heap × BlockchainRef × Nat :=
  let heap' := heapSet heap a
    (dictSet (heapGet heap a) "timestamp" (Value.s now))
  let bc' := { bc with pending_records := bc.pending_records ++ [a] }
  (heap', bc', bc'.pending_records.length)

/-- `mine_pending_records` under reference semantics:
`self.pending_records.copy()` copies the list of references only, so the
new block's `records` list holds the same dict objects. -/
def minePendingRef (H : HashInput → String) (heap : Heap) (fuel ts : Nat)
    (bc : BlockchainRef) : Option (BlockchainRef × Bool) :=
  if bc.pending_records.isEmpty then some (bc, false)
  else
    match bc.chain.getLast? with
    | none => none
    | some tip =>
      let candidate := BlockRef.mkNew H heap bc.chain.length ts
        bc.pending_records tip.hash
      match mineBlockRef H heap bc.difficulty fuel candidate with
      | none => none
      | some nb =>
        some ({ bc with chain := bc.chain ++ [nb], pending_records := [] },
          true)

/-! ### Reachable states and the chain invariant -/

/-- Chain states reachable by construction (`Blockchain.__init__`),
record submission (`add_record`) and commit (`mine_pending_records`). -/
inductive Reachable (H : HashInput → String) : Blockchain → Prop where
  | init (ts fuel : Nat) (bc : Blockchain) :
      Blockchain.init H ts fuel = some bc → Reachable H bc
  | submit (bc : Blockchain) (r : Record) (now : String) :
      Reachable H bc → Reachable H (addRecord bc r now).1
  | commit (bc bc' : Blockchain) (fuel ts : Nat) (flag : Bool) :
      Reachable H bc → minePendingRecords H fuel ts bc = some (bc', flag) →
      Reachable H bc'

/-- The structural invariant of the chain: non-empty, hash-linked, every
stored hash matches the recomputed digest, and every block (the mined
genesis included) meets the proof-of-work target. -/
def ChainInv (H : HashInput → String) (bc : Blockchain) : Prop :=
  bc.chain ≠ [] ∧ bc.difficulty = 2 ∧
  List.Chain' (fun a b => b.previous_hash = a.hash) bc.chain ∧
  (∀ b ∈ bc.chain, b.hash = H b.hashInput) ∧
  (∀ b ∈ bc.chain, powOk bc.difficulty b.hash = true)

/-! ### Concrete states used by witnesses and counterexamples -/

/-- The genesis block constructed under `Hc` at time 0: its initial hash
already meets the difficulty-2 target, so mining stops at nonce 0. -/
def gW : Block := Block.mkNew Hc 0 0 genesisRecords "0"

/-- The fresh chain constructed under `Hc` at time 0. -/
def bcW : Blockchain := ⟨[gW], 2, []⟩

/-- `gW` with its `records` field mutated after mining, `hash` left
stale: the tampering scenario of the spec applied to the genesis block. -/
def gTampered : Block := { gW with records := [Entry.txt "X"] }

/-- A stored chain whose genesis block was mutated without remining. -/
def bcTampered : Blockchain := ⟨[gTampered], 2, []⟩

/-- Scenario record 1: `{"patient_id": "P1", "diagnosis": "flu"}`. -/
def recP1 : Record := [("patient_id", Value.s "P1"), ("diagnosis", Value.s "flu")]

/-- Scenario record 2: `{"patient_id": "P2", "diagnosis": "cold"}`. -/
def recP2 : Record := [("patient_id", Value.s "P2"), ("diagnosis", Value.s "cold")]

/-- A record carrying neither `patient_id` nor `doctor_id`. -/
def recNoId : Record := [("diagnosis", Value.s "flu")]

/-- State after submitting `recP1`. -/
def bcS1 : Blockchain := (addRecord bcW recP1 "t1").1

/-- State after submitting `recP1` then `recP2`. -/
def bcS2 : Blockchain := (addRecord bcS1 recP2 "t2").1

/-- State after the single commit of the query scenario. -/
def bcScenario : Blockchain :=
  ((minePendingRecords Hc 0 7 bcS2).getD (bcS2, false)).1

/-- `bcScenario` with the records of its second block mutated without
remining: a tampered non-genesis block. -/
def bcScenarioTampered : Blockchain :=
  { bcScenario with
    chain := bcScenario.chain.set 1
      { (bcScenario.chain.getD 1 gW) with records := [Entry.txt "X"] } }

/-- A one-object heap: the dict the caller is about to submit, carrying a
caller-supplied timestamp that `add_record` will overwrite. -/
def heapW : Heap := [[("patient_id", Value.s "P1"),
  ("timestamp", Value.s "caller-supplied")]]

/-- A reference-semantics chain with a genesis tip and empty queue. -/
def bcRefW : BlockchainRef :=
  ⟨[⟨0, 0, [], "0", 0, Hc ⟨0, 0, [], "0", 0⟩⟩], 2, []⟩

/-- `heapW` after `add_record` mutates the object in place: the
caller-supplied timestamp value is overwritten at its position. -/
def heapW2 : Heap := [[("patient_id", Value.s "P1"),
  ("timestamp", Value.s "now")]]

/-- `bcRefW` after `add_record` appends the reference to the queue. -/
def bcRefW2 : BlockchainRef := { bcRefW with pending_records := [0] }

/-! ## Helper lemmas -/

/-- After the in-place overwrite branch of `dictSet`, the first binding
of `k` is the new one. -/
theorem find?_dictSet_replace (k : String) (v : Value) :
    ∀ (r : Record), r.any (fun p => p.1 == k) = true →
      (r.map (fun p => if p.1 == k then (k, v) else p)).find?
        (fun p => p.1 == k) = some (k, v)
  | [], h => by simp at h
  | p :: r, h => by
    by_cases hp : p.1 = k
    · have hgp : (if (p.1 == k) then (k, v) else p) = (k, v) := by simp [hp]
      rw [List.map_cons, hgp, List.find?_cons_of_pos _ (by simp)]
    · have hgp : (if (p.1 == k) then (k, v) else p) = p := by simp [hp]
      have hr : r.any (fun q => q.1 == k) = true := by
        simpa [List.any_cons, hp] using h
      rw [List.map_cons, hgp, List.find?_cons_of_neg _ (by simp [hp])]
      exact find?_dictSet_replace k v r hr

/-- After the append branch of `dictSet`, the only binding of `k` is the
appended one. -/
theorem find?_dictSet_append (k : String) (v : Value) :
    ∀ (r : Record), r.any (fun p => p.1 == k) = false →
      (r ++ [(k, v)]).find? (fun p => p.1 == k) = some (k, v)
  | [], _ => by simp
  | p :: r, h => by
    have hp' : (p.1 == k) = false := by
      cases hb : (p.1 == k) <;> simp [List.any_cons, hb] at h ⊢
    have hr : r.any (fun q => q.1 == k) = false := by
      simpa [List.any_cons, hp'] using h
    rw [List.cons_append, List.find?_cons_of_neg _ (by simp [hp'])]
    exact find?_dictSet_append k v r hr

/-- Setting a key then reading it back yields the written value. -/
theorem dictGet_dictSet_self (r : Record) (k : String) (v : Value) :
    dictGet (dictSet r k v) k = some v := by
  unfold dictGet dictSet
  cases hany : r.any (fun p => p.1 == k) with
  | true =>
    rw [if_pos rfl, find?_dictSet_replace k v r hany]
    rfl
  | false =>
    rw [if_neg (by simp), find?_dictSet_append k v r hany]
    rfl

/-- The serialization input ignores the stored `hash` field. -/
theorem hashInput_set_hash (b : Block) (h : String) :
    ({ b with hash := h } : Block).hashInput = b.hashInput := rfl

/-- A freshly constructed block's hash is the digest of its fields. -/
theorem mkNew_hashOk (H : HashInput → String) (i t : Nat) (rs : List Entry)
    (p : String) :
    (Block.mkNew H i t rs p).hash = H (Block.mkNew H i t rs p).hashInput := rfl

/-- The fields assigned by `Block.__init__`. -/
theorem mkNew_fields (H : HashInput → String) (i t : Nat) (rs : List Entry)
    (p : String) :
    (Block.mkNew H i t rs p).index = i ∧
    (Block.mkNew H i t rs p).timestamp = t ∧
    (Block.mkNew H i t rs p).records = rs ∧
    (Block.mkNew H i t rs p).previous_hash = p ∧
    (Block.mkNew H i t rs p).nonce = 0 := by
  refine ⟨rfl, rfl, rfl, rfl, rfl⟩

/-- Mining returns a block meeting the proof-of-work target. -/
theorem mineBlock_pow (H : HashInput → String) (d : Nat) :
    ∀ (fuel : Nat) (b b' : Block), mineBlock H d fuel b = some b' →
      powOk d b'.hash = true
  | 0, b, b', h => by
    by_cases hp : powOk d b.hash = true
    · simp [mineBlock, hp] at h; simpa [← h] using hp
    · simp [mineBlock, hp] at h
  | fuel + 1, b, b', h => by
    by_cases hp : powOk d b.hash = true
    · simp [mineBlock, hp] at h; simpa [← h] using hp
    · simp only [mineBlock, hp, if_false] at h
      exact mineBlock_pow H d fuel _ b' h

/-- Mining changes only `nonce` and `hash`. -/
theorem mineBlock_fields (H : HashInput → String) (d : Nat) :
    ∀ (fuel : Nat) (b b' : Block), mineBlock H d fuel b = some b' →
      b'.index = b.index ∧ b'.timestamp = b.timestamp ∧
      b'.records = b.records ∧ b'.previous_hash = b.previous_hash
  | 0, b, b', h => by
    by_cases hp : powOk d b.hash = true
    · simp [mineBlock, hp] at h; simp [← h]
    · simp [mineBlock, hp] at h
  | fuel + 1, b, b', h => by
    by_cases hp : powOk d b.hash = true
    · simp [mineBlock, hp] at h; simp [← h]
    · simp only [mineBlock, hp, if_false] at h
      simpa using mineBlock_fields H d fuel _ b' h

/-- Mining preserves hash well-formedness: if the stored hash equals the
recomputed digest before the loop, it does after. -/
theorem mineBlock_hashOk (H : HashInput → String) (d : Nat) :
    ∀ (fuel : Nat) (b b' : Block), b.hash = H b.hashInput →
      mineBlock H d fuel b = some b' → b'.hash = H b'.hashInput
  | 0, b, b', hw, h => by
    by_cases hp : powOk d b.hash = true
    · simp [mineBlock, hp] at h; simpa [← h] using hw
    · simp [mineBlock, hp] at h
  | fuel + 1, b, b', hw, h => by
    by_cases hp : powOk d b.hash = true
    · simp [mineBlock, hp] at h; simpa [← h] using hw
    · simp only [mineBlock, hp, if_false] at h
      exact mineBlock_hashOk H d fuel _ b' rfl h

/-- Writing a path then reading it yields the written content. -/
theorem fsGet_fsSet_self (fs : Fs) (p : String) (c : FileContent) :
    fsGet (fsSet fs p c) p = some c := by
  unfold fsGet fsSet
  rw [List.find?_cons_of_pos _ (by simp)]
  rfl

/-- Reading under the removal filter at a different path is unchanged. -/
theorem find?_filter_ne (p q : String) (h : q ≠ p) :
    ∀ (fs : Fs), (fs.filter (fun e => e.1 != p)).find? (fun e => e.1 == q)
      = fs.find? (fun e => e.1 == q)
  | [] => rfl
  | e :: fs => by
    by_cases hp : e.1 = p
    · have hq : ¬ e.1 = q := fun hh => h (by rw [← hh]; exact hp)
      simp [List.filter_cons, List.find?_cons, hp, hq, h, Ne.symm h,
        find?_filter_ne p q h fs]
    · by_cases hq : e.1 = q
      · simp [List.filter_cons, List.find?_cons, hp, hq, h, Ne.symm h]
      · simp [List.filter_cons, List.find?_cons, hp, hq, h, Ne.symm h,
          find?_filter_ne p q h fs]

/-- Writing a path leaves every other path unchanged. -/
theorem fsGet_fsSet_ne (fs : Fs) (p q : String) (c : FileContent)
    (h : q ≠ p) : fsGet (fsSet fs p c) q = fsGet fs q := by
  unfold fsGet fsSet
  rw [List.find?_cons_of_neg _ (by simp [Ne.symm h]),
    find?_filter_ne p q h fs]

/-- Removing a path deletes its binding. -/
theorem fsGet_fsRemove_self (fs : Fs) (p : String) :
    fsGet (fsRemove fs p) p = none := by
  unfold fsGet fsRemove
  rw [List.find?_eq_none.mpr]
  · rfl
  · intro e he
    have := (List.mem_filter.mp he).2
    simp only [bne_iff_ne, ne_eq] at this
    simp [this]

/-- Removing a path leaves every other path unchanged. -/
theorem fsGet_fsRemove_ne (fs : Fs) (p q : String) (h : q ≠ p) :
    fsGet (fsRemove fs p) q = fsGet fs q := by
  unfold fsGet fsRemove
  rw [find?_filter_ne p q h fs]

/-- Appending a non-empty suffix changes a string. -/
theorem string_append_ne (s t : String) (h : 0 < t.length) : s ++ t ≠ s := by
  intro he
  have hl := congrArg String.length he
  rw [String.length_append] at hl
  omega

/-- The `.temp` path of `safe_save_pickle` differs from the target. -/
theorem temp_ne (p : String) : p ++ ".temp" ≠ p :=
  string_append_ne p ".temp" (by decide)

/-- The timestamped backup path of `safe_load_pickle` differs from the
original path. -/
theorem backup_ne (p : String) (n : Nat) :
    p ++ "." ++ toString n ++ ".bak" ≠ p := by
  intro he
  have hl := congrArg String.length he
  simp only [String.length_append] at hl
  have h1 : ("." : String).length = 1 := by decide
  have h4 : (".bak" : String).length = 4 := by decide
  omega

/-- The validator loop accepts exactly the chains whose consecutive pairs
pass the per-step check. -/
theorem validFrom_iff_chain' (H : HashInput → String) :
    ∀ (l : List Block), validFrom H l = true ↔
      List.Chain' (fun a b => chainStepOk H a b = true) l
  | [] => by simp [validFrom]
  | [a] => by simp [validFrom]
  | a :: b :: rest => by
    have ih := validFrom_iff_chain' H (b :: rest)
    simp [validFrom, List.chain'_cons, ih, Bool.and_eq_true, and_comm]

/-- Writing a heap cell then dereferencing it yields the written dict. -/
theorem heapGet_heapSet_self (heap : Heap) (a : Addr) (r : Record)
    (h : a < heap.length) : heapGet (heapSet heap a r) a = r := by
  unfold heapGet heapSet
  rw [List.getD_eq_getElem?_getD, List.getElem?_set_self h]
  rfl

/-- Writing a heap cell leaves every other cell unchanged. -/
theorem heapGet_heapSet_ne (heap : Heap) (a b : Addr) (r : Record)
    (h : b ≠ a) : heapGet (heapSet heap a r) b = heapGet heap b := by
  unfold heapGet heapSet
  rw [List.getD_eq_getElem?_getD, List.getElem?_set_ne (Ne.symm h),
    ← List.getD_eq_getElem?_getD]

/-- Writing a heap cell allocates nothing. -/
theorem heapSet_length (heap : Heap) (a : Addr) (r : Record) :
    (heapSet heap a r).length = heap.length := List.length_set heap a r

/-- Dissection of a successful commit on a non-empty queue: the new state
is the old one with one mined block appended and the queue cleared. -/
theorem minePending_dissect (H : HashInput → String) (fuel ts : Nat)
    (bc bc' : Blockchain) (flag : Bool)
    (hne : bc.pending_records ≠ [])
    (h : minePendingRecords H fuel ts bc = some (bc', flag)) :
    ∃ tip nb, bc.chain.getLast? = some tip ∧
      mineBlock H bc.difficulty fuel
        (Block.mkNew H bc.chain.length ts
          (bc.pending_records.map Entry.dict) tip.hash) = some nb ∧
      bc' = { bc with chain := bc.chain ++ [nb], pending_records := [] } ∧
      flag = true := by
  have hE : bc.pending_records.isEmpty = false := by
    cases hp : bc.pending_records with
    | nil => exact absurd hp hne
    | cons x xs => rfl
  unfold minePendingRecords at h
  rw [hE] at h
  simp only [Bool.false_eq_true, if_false] at h
  split at h
  · exact Option.noConfusion h
  · rename_i tip hL
    split at h
    · exact Option.noConfusion h
    · rename_i nb hM
      have hp := Option.some.inj h
      exact ⟨tip, nb, hL, hM,
        (congrArg Prod.fst hp).symm, (congrArg Prod.snd hp).symm⟩

/-- Reference-semantics mining changes only `nonce` and `hash`. -/
theorem mineBlockRef_fields (H : HashInput → String) (heap : Heap)
    (d : Nat) :
    ∀ (fuel : Nat) (b b' : BlockRef),
      mineBlockRef H heap d fuel b = some b' →
      b'.index = b.index ∧ b'.timestamp = b.timestamp ∧
      b'.records = b.records ∧ b'.previous_hash = b.previous_hash
  | 0, b, b', h => by
    by_cases hp : powOk d b.hash = true
    · simp [mineBlockRef, hp] at h; simp [← h]
    · simp [mineBlockRef, hp] at h
  | fuel + 1, b, b', h => by
    by_cases hp : powOk d b.hash = true
    · simp [mineBlockRef, hp] at h; simp [← h]
    · simp only [mineBlockRef, hp, if_false] at h
      simpa using mineBlockRef_fields H heap d fuel _ b' h

/-- Dissection of a successful reference-semantics commit. -/
theorem minePendingRef_dissect (H : HashInput → String) (heap : Heap)
    (fuel ts : Nat) (bc bc' : BlockchainRef) (flag : Bool)
    (hne : bc.pending_records ≠ [])
    (h : minePendingRef H heap fuel ts bc = some (bc', flag)) :
    ∃ tip nb, bc.chain.getLast? = some tip ∧
      mineBlockRef H heap bc.difficulty fuel
        (BlockRef.mkNew H heap bc.chain.length ts
          bc.pending_records tip.hash) = some nb ∧
      bc' = { bc with chain := bc.chain ++ [nb], pending_records := [] } ∧
      flag = true := by
  have hE : bc.pending_records.isEmpty = false := by
    cases hp : bc.pending_records with
    | nil => exact absurd hp hne
    | cons x xs => rfl
  unfold minePendingRef at h
  rw [hE] at h
  simp only [Bool.false_eq_true, if_false] at h
  split at h
  · exact Option.noConfusion h
  · rename_i tip hL
    split at h
    · exact Option.noConfusion h
    · rename_i nb hM
      have hp := Option.some.inj h
      exact ⟨tip, nb, hL, hM,
        (congrArg Prod.fst hp).symm, (congrArg Prod.snd hp).symm⟩

/-- Every reachable chain state satisfies the structural invariant. -/
theorem chainInv_reachable (H : HashInput → String) :
    ∀ (bc : Blockchain), Reachable H bc → ChainInv H bc := by
  intro bc h
  induction h with
  | init ts fuel bc h =>
    unfold Blockchain.init at h
    rw [Option.map_eq_some'] at h
    obtain ⟨g, hg, rfl⟩ := h
    have hw := mineBlock_hashOk H 2 fuel _ g
      (mkNew_hashOk H 0 ts genesisRecords "0") hg
    have hp := mineBlock_pow H 2 fuel _ g hg
    refine ⟨by simp, rfl, List.chain'_singleton g, ?_, ?_⟩
    · intro b hb; rw [List.mem_singleton] at hb; subst hb; exact hw
    · intro b hb; rw [List.mem_singleton] at hb; subst hb; exact hp
  | submit bc r now hr ih => exact ih
  | commit bc bc' fuel ts flag hr hm ih =>
    by_cases hp : bc.pending_records = []
    · have hb : bc' = bc := by
        simp [minePendingRecords, hp] at hm
        exact hm.1.symm
      rw [hb]; exact ih
    · obtain ⟨tip, nb, hL, hM, rfl, -⟩ :=
        minePending_dissect H fuel ts bc bc' flag hp hm
      obtain ⟨hne, hd, hchain, hhash, hpow⟩ := ih
      obtain ⟨hNi, hNt, hNr, hNp⟩ :=
        mineBlock_fields H bc.difficulty fuel _ nb hM
      have hNh := mineBlock_hashOk H bc.difficulty fuel _ nb
        (mkNew_hashOk H bc.chain.length ts
          (bc.pending_records.map Entry.dict) tip.hash) hM
      have hNw := mineBlock_pow H bc.difficulty fuel _ nb hM
      refine ⟨by simp, hd, ?_, ?_, ?_⟩
      · apply List.Chain'.append hchain (List.chain'_singleton nb)
        intro x hx y hy
        rw [Option.mem_def, hL] at hx
        rw [Option.mem_def, List.head?_cons] at hy
        injection hx with hx'
        injection hy with hy'
        subst hx'; subst hy'
        rw [hNp]
        rfl
      · intro b hb
        rcases List.mem_append.mp hb with hb | hb
        · exact hhash b hb
        · rw [List.mem_singleton] at hb; subst hb; exact hNh
      · intro b hb
        rcases List.mem_append.mp hb with hb | hb
        · exact hpow b hb
        · rw [List.mem_singleton] at hb; subst hb; exact hNw

/-! ## Claim theorems -/

/-- C9: every freshly constructed Chain has exactly one block, whose
index is 0 and whose previous_hash is the sentinel string "0", and the
fresh chain passes is_valid(). -/
theorem claim_C9_genesis (H : HashInput → String) (ts fuel : Nat)
    (bc : Blockchain) (h : Blockchain.init H ts fuel = some bc) :
    bc.chain.length = 1 ∧
    (∃ g, bc.chain = [g] ∧ g.index = 0 ∧ g.previous_hash = "0") ∧
    isChainValid H bc = true := by
  unfold Blockchain.init at h
  rw [Option.map_eq_some'] at h
  obtain ⟨g, hg, rfl⟩ := h
  obtain ⟨hi, ht, hr, hp⟩ := mineBlock_fields H 2 fuel _ g hg
  exact ⟨rfl, ⟨g, rfl, by rw [hi]; rfl, by rw [hp]; rfl⟩, rfl⟩

/-- C9 witness: the concrete fresh chain under the digest Hc. -/
theorem claim_C9_genesis_witness :
    bcW.chain.length = 1 ∧
    (∃ g, bcW.chain = [g] ∧ g.index = 0 ∧ g.previous_hash = "0") ∧
    isChainValid Hc bcW = true :=
  claim_C9_genesis Hc 0 0 bcW (by decide)

/-- C7: commit on an empty pending queue is a no-op returning False, and
calling it twice in a row (the state is unchanged, so the second call
sees the same empty queue) creates no block and changes nothing. -/
theorem claim_C7_commit_empty_noop (H : HashInput → String)
    (fuel ts fuel' ts' : Nat) (bc : Blockchain)
    (h : bc.pending_records = []) :
    minePendingRecords H fuel ts bc = some (bc, false) ∧
    minePendingRecords H fuel' ts' bc = some (bc, false) := by
  constructor <;> simp [minePendingRecords, h]

/-- C7 witness: the fresh chain has an empty queue; two successive
commits leave it untouched. -/
theorem claim_C7_commit_empty_noop_witness :
    minePendingRecords Hc 3 5 bcW = some (bcW, false) ∧
    minePendingRecords Hc 4 6 bcW = some (bcW, false) :=
  claim_C7_commit_empty_noop Hc 3 5 4 6 bcW rfl

/-- C2 counterexample: a record carrying neither patient_id nor
doctor_id is not rejected: add_record stamps it and appends it to the
queue, returning the new length 1. -/
theorem claim_C2_counterexample :
    dictGet recNoId "patient_id" = none ∧
    dictGet recNoId "doctor_id" = none ∧
    (addRecord bcW recNoId "now").2 = 1 ∧
    (addRecord bcW recNoId "now").1.pending_records =
      [[("diagnosis", Value.s "flu"), ("timestamp", Value.s "now")]] := by
  exact ⟨rfl, rfl, rfl, rfl⟩

/-- C2 amended: add_record performs no identity validation: for every
record (well-formed or not) it stamps the timestamp key (overwriting any
existing value), appends the stamped record to pending_records, and
returns the new queue length, leaving chain and difficulty unchanged. -/
theorem claim_C2_submit (bc : Blockchain) (r : Record) (now : String) :
    (addRecord bc r now).1.pending_records
      = bc.pending_records ++ [dictSet r "timestamp" (Value.s now)] ∧
    (addRecord bc r now).2 = bc.pending_records.length + 1 ∧
    (addRecord bc r now).1.chain = bc.chain ∧
    (addRecord bc r now).1.difficulty = bc.difficulty ∧
    dictGet (dictSet r "timestamp" (Value.s now)) "timestamp"
      = some (Value.s now) := by
  refine ⟨rfl, ?_, rfl, rfl, dictGet_dictSet_self r "timestamp" (Value.s now)⟩
  simp [addRecord]

/-- C1 counterexample: the validator loop starts at index 1, so the
genesis block is exempt from the hash-recomputation check as well:
mutating the records of the stored genesis block without remining leaves
its hash stale, yet is_chain_valid still returns true. -/
theorem claim_C1_counterexample :
    Blockchain.init Hc 0 0 = some bcW ∧
    gTampered = { gW with records := [Entry.txt "X"] } ∧
    gTampered.hash = gW.hash ∧
    gTampered.hash ≠ Hc gTampered.hashInput ∧
    isChainValid Hc bcTampered = true :=
  ⟨by decide, rfl, rfl, by decide, rfl⟩

/-- C1 amended: is_chain_valid checks, for every block at index i ≥ 1
only, the recomputed hash against the stored hash and the previous_hash
link to block i-1; the genesis block is exempt from both checks.
Consequently mutating a field of a block at index i ≥ 1 without remining
(so that its stored hash no longer matches its recomputed digest) makes
is_chain_valid return false. -/
theorem claim_C1_validator (H : HashInput → String) (bc : Blockchain) :
    (isChainValid H bc = true ↔
      ∀ (i : Nat) (hi : i + 1 < bc.chain.length),
        (bc.chain.get ⟨i + 1, hi⟩).hash
            = H (bc.chain.get ⟨i + 1, hi⟩).hashInput ∧
        (bc.chain.get ⟨i + 1, hi⟩).previous_hash
            = (bc.chain.get ⟨i, Nat.lt_of_succ_lt hi⟩).hash) ∧
    (∀ (i : Nat) (hi : i + 1 < bc.chain.length),
      (bc.chain.get ⟨i + 1, hi⟩).hash
          ≠ H (bc.chain.get ⟨i + 1, hi⟩).hashInput →
      isChainValid H bc = false) := by
  have hiff : isChainValid H bc = true ↔
      ∀ (i : Nat) (h : i < bc.chain.length - 1),
        chainStepOk H (bc.chain.get ⟨i, by omega⟩)
          (bc.chain.get ⟨i + 1, by omega⟩) = true := by
    rw [show isChainValid H bc = validFrom H bc.chain from rfl,
      validFrom_iff_chain', List.chain'_iff_get]
  have hmain : isChainValid H bc = true ↔
      ∀ (i : Nat) (hi : i + 1 < bc.chain.length),
        (bc.chain.get ⟨i + 1, hi⟩).hash
            = H (bc.chain.get ⟨i + 1, hi⟩).hashInput ∧
        (bc.chain.get ⟨i + 1, hi⟩).previous_hash
            = (bc.chain.get ⟨i, Nat.lt_of_succ_lt hi⟩).hash := by
    rw [hiff]
    constructor
    · intro hv i hi
      have hstep := hv i (by omega)
      simp only [chainStepOk, Bool.and_eq_true, beq_iff_eq] at hstep
      exact hstep
    · intro hall i h
      have hstep := hall i (by omega)
      simp only [chainStepOk, Bool.and_eq_true, beq_iff_eq]
      exact hstep
  refine ⟨hmain, ?_⟩
  intro i hi hbad
  cases hv : isChainValid H bc with
  | false => rfl
  | true => exact absurd (hmain.mp hv i hi).1 hbad

/-- C1 witness: a two-block chain whose second block was tampered fails
validation. -/
theorem claim_C1_validator_witness :
    isChainValid Hc bcScenarioTampered = false :=
  (claim_C1_validator Hc bcScenarioTampered).2 0 (by decide) (by decide)

/-- C5: a commit on a non-empty queue returns True and produces exactly
one new block appended to the chain, with index equal to the old chain
length, records a snapshot of the pending queue, previous_hash equal to
the stored hash of the old tip, and the timestamp passed at commit time;
the queue is left empty and the difficulty unchanged. -/
theorem claim_C5_commit (H : HashInput → String) (fuel ts : Nat)
    (bc bc' : Blockchain) (flag : Bool)
    (hne : bc.pending_records ≠ [])
    (h : minePendingRecords H fuel ts bc = some (bc', flag)) :
    flag = true ∧ bc'.pending_records = [] ∧
    bc'.difficulty = bc.difficulty ∧
    ∃ nb, bc'.chain = bc.chain ++ [nb] ∧
      nb.index = bc.chain.length ∧ nb.timestamp = ts ∧
      nb.records = bc.pending_records.map Entry.dict ∧
      ∀ tip, bc.chain.getLast? = some tip → nb.previous_hash = tip.hash := by
  obtain ⟨tip, nb, hL, hM, rfl, hflag⟩ :=
    minePending_dissect H fuel ts bc bc' flag hne h
  obtain ⟨hNi, hNt, hNr, hNp⟩ := mineBlock_fields H bc.difficulty fuel _ nb hM
  refine ⟨hflag, rfl, rfl, nb, rfl, by rw [hNi]; rfl, by rw [hNt]; rfl,
    by rw [hNr]; rfl, ?_⟩
  intro tip' hL'
  rw [hL] at hL'
  injection hL' with htip
  rw [← htip, hNp]
  rfl

/-- C5 witness: the concrete commit of the two-record scenario. -/
theorem claim_C5_commit_witness :
    true = true ∧ bcScenario.pending_records = [] ∧
    bcScenario.difficulty = bcS2.difficulty ∧
    ∃ nb, bcScenario.chain = bcS2.chain ++ [nb] ∧
      nb.index = bcS2.chain.length ∧ nb.timestamp = 7 ∧
      nb.records = bcS2.pending_records.map Entry.dict ∧
      ∀ tip, bcS2.chain.getLast? = some tip →
        nb.previous_hash = tip.hash :=
  claim_C5_commit Hc 0 7 bcS2 bcScenario true (by decide) (by decide)

/-- C6: in every reachable chain state, each block at index i ≥ 1 links
to the stored hash of its predecessor, every stored hash (the genesis
block included) equals the digest recomputed from the other five fields,
and every block at index i ≥ 1 meets the difficulty proof-of-work
target. -/
theorem claim_C6_invariants (H : HashInput → String) (bc : Blockchain)
    (h : Reachable H bc) :
    (∀ (i : Nat) (hi : i + 1 < bc.chain.length),
      (bc.chain.get ⟨i + 1, hi⟩).previous_hash
        = (bc.chain.get ⟨i, Nat.lt_of_succ_lt hi⟩).hash) ∧
    (∀ b ∈ bc.chain, b.hash = H b.hashInput) ∧
    (∀ (i : Nat) (hi : i < bc.chain.length), 0 < i →
      powOk bc.difficulty (bc.chain.get ⟨i, hi⟩).hash = true) := by
  obtain ⟨hne, hd, hchain, hhash, hpow⟩ := chainInv_reachable H bc h
  refine ⟨?_, hhash, ?_⟩
  · intro i hi
    exact List.chain'_iff_get.mp hchain i (by omega)
  · intro i hi _
    exact hpow (bc.chain.get ⟨i, hi⟩) (bc.chain.get_mem i hi)

/-- C6 witness: the invariants instantiated at the committed scenario
chain, reached by construction, two submissions and one commit. -/
theorem claim_C6_invariants_witness :
    (∀ (i : Nat) (hi : i + 1 < bcScenario.chain.length),
      (bcScenario.chain.get ⟨i + 1, hi⟩).previous_hash
        = (bcScenario.chain.get ⟨i, Nat.lt_of_succ_lt hi⟩).hash) ∧
    (∀ b ∈ bcScenario.chain, b.hash = Hc b.hashInput) ∧
    (∀ (i : Nat) (hi : i < bcScenario.chain.length), 0 < i →
      powOk bcScenario.difficulty (bcScenario.chain.get ⟨i, hi⟩).hash
        = true) :=
  claim_C6_invariants Hc bcScenario
    (Reachable.commit bcS2 bcScenario 0 7 true
      (Reachable.submit bcS1 recP2 "t2"
        (Reachable.submit bcW recP1 "t1"
          (Reachable.init 0 0 bcW (by decide))))
      (by decide))

/-- C8: get_records_for_patient scans blocks in chain order and returns
exactly the dict entries whose patient_id equals the query, each
decorated with its containing block's index, hash and timestamp; the
genesis sentinel (a bare string, not a dict) is excluded;
get_records_for_doctor is symmetric on doctor_id.  In the concrete
scenario (submit P1/flu and P2/cold, commit once), the P1 query returns
exactly one entry with diagnosis flu and block index 1, and the P3 query
returns the empty sequence. -/
theorem claim_C8_query :
    (∀ (bc : Blockchain) (pid : Value) (out : Record),
      out ∈ getRecordsForPatient bc pid ↔
        ∃ b ∈ bc.chain, ∃ r, Entry.dict r ∈ b.records ∧
          dictGet r "patient_id" = some pid ∧ out = decorate b r) ∧
    (∀ (bc : Blockchain) (did : Value) (out : Record),
      out ∈ getRecordsForDoctor bc did ↔
        ∃ b ∈ bc.chain, ∃ r, Entry.dict r ∈ b.records ∧
          dictGet r "doctor_id" = some did ∧ out = decorate b r) ∧
    (getRecordsForPatient bcScenario (Value.s "P1")).length = 1 ∧
    (∀ out ∈ getRecordsForPatient bcScenario (Value.s "P1"),
      dictGet out "diagnosis" = some (Value.s "flu") ∧
      dictGet out "block_index" = some (Value.n 1)) ∧
    getRecordsForPatient bcScenario (Value.s "P3") = [] := by
  refine ⟨?_, ?_, by decide, by decide, by decide⟩
  · intro bc pid out
    unfold getRecordsForPatient
    rw [List.mem_flatten]
    constructor
    · rintro ⟨l, hl, hout⟩
      rw [List.mem_map] at hl
      obtain ⟨b, hb, rfl⟩ := hl
      rw [List.mem_filterMap] at hout
      obtain ⟨e, he, hmap⟩ := hout
      cases e with
      | txt s => exact absurd hmap (by simp)
      | dict r =>
        replace hmap : (if (dictGet r "patient_id" == some pid) = true
            then some (decorate b r) else none) = some out := hmap
        by_cases hp : (dictGet r "patient_id" == some pid) = true
        · rw [if_pos hp] at hmap
          exact ⟨b, hb, r, he, by simpa using hp,
            (Option.some.inj hmap).symm⟩
        · rw [if_neg hp] at hmap
          exact absurd hmap (by simp)
    · rintro ⟨b, hb, r, he, hpid, rfl⟩
      refine ⟨_, List.mem_map_of_mem _ hb, ?_⟩
      rw [List.mem_filterMap]
      exact ⟨Entry.dict r, he, by simp [hpid]⟩
  · intro bc did out
    unfold getRecordsForDoctor
    rw [List.mem_flatten]
    constructor
    · rintro ⟨l, hl, hout⟩
      rw [List.mem_map] at hl
      obtain ⟨b, hb, rfl⟩ := hl
      rw [List.mem_filterMap] at hout
      obtain ⟨e, he, hmap⟩ := hout
      cases e with
      | txt s => exact absurd hmap (by simp)
      | dict r =>
        replace hmap : (if (dictGet r "doctor_id" == some did) = true
            then some (decorate b r) else none) = some out := hmap
        by_cases hp : (dictGet r "doctor_id" == some did) = true
        · rw [if_pos hp] at hmap
          exact ⟨b, hb, r, he, by simpa using hp,
            (Option.some.inj hmap).symm⟩
        · rw [if_neg hp] at hmap
          exact absurd hmap (by simp)
    · rintro ⟨b, hb, r, he, hdid, rfl⟩
      refine ⟨_, List.mem_map_of_mem _ hb, ?_⟩
      rw [List.mem_filterMap]
      exact ⟨Entry.dict r, he, by simp [hdid]⟩

/-- C3 counterexample: on garbage bytes, Blockchain.load propagates the
UnpicklingError to the caller instead of quarantining the file, and on
truncated bytes the safe_load_pickle helper returns the default without
renaming the unreadable file to a backup path. -/
theorem claim_C3_counterexample :
    loadPy [(canonicalPath, FileContent.garbage)]
      = LoadResult.raisedUnpicklingError ∧
    safeLoadPickle [(canonicalPath, FileContent.truncated)] canonicalPath 5
      = (SafeLoadResult.defaultValue,
        [(canonicalPath, FileContent.truncated)]) := by
  exact ⟨rfl, rfl⟩

/-- C3 amended: Blockchain.load returns a fresh genesis chain only for a
missing, empty or truncated (EOFError) snapshot, and propagates the
UnpicklingError raised on garbage bytes; the safe_load_pickle helper
never propagates, but renames the file to the timestamped backup path
(preserving its content and clearing the original path) only on
UnpicklingError, returning the default with the file system untouched
for the other failure modes, and the deserialized chain on success. -/
theorem claim_C3_load (fs : Fs) (path : String) (now : Nat) :
    (fsGet fs canonicalPath = some FileContent.garbage →
      loadPy fs = LoadResult.raisedUnpicklingError) ∧
    ((fsGet fs canonicalPath = none ∨
      fsGet fs canonicalPath = some FileContent.emptyFile ∨
      fsGet fs canonicalPath = some FileContent.truncated) →
      loadPy fs = LoadResult.freshChain) ∧
    (fsGet fs path = some FileContent.garbage →
      (safeLoadPickle fs path now).1 = SafeLoadResult.defaultValue ∧
      fsGet (safeLoadPickle fs path now).2
        (path ++ "." ++ toString now ++ ".bak")
        = some FileContent.garbage ∧
      fsGet (safeLoadPickle fs path now).2 path = none) ∧
    (fsGet fs path = some FileContent.truncated →
      safeLoadPickle fs path now
        = (SafeLoadResult.defaultValue, fs)) ∧
    (∀ bc, fsGet fs path = some (FileContent.snapshot bc) →
      safeLoadPickle fs path now = (SafeLoadResult.loaded bc, fs)) := by
  refine ⟨?_, ?_, ?_, ?_, ?_⟩
  · intro h; unfold loadPy; rw [h]
  · rintro (h | h | h) <;> (unfold loadPy; rw [h])
  · intro h
    unfold safeLoadPickle
    rw [h]
    unfold fsRename
    rw [h]
    refine ⟨rfl, fsGet_fsSet_self _ _ _, ?_⟩
    rw [fsGet_fsSet_ne _ _ _ _ (Ne.symm (backup_ne path now)),
      fsGet_fsRemove_self]
  · intro h; unfold safeLoadPickle; rw [h]
  · intro bc h; unfold safeLoadPickle; rw [h]

/-- C3 witness: the amended behavior at a concrete file system holding
garbage bytes at the canonical path. -/
theorem claim_C3_load_witness :
    (fsGet [(canonicalPath, FileContent.garbage)] canonicalPath
        = some FileContent.garbage →
      loadPy [(canonicalPath, FileContent.garbage)]
        = LoadResult.raisedUnpicklingError) ∧
    ((fsGet [(canonicalPath, FileContent.garbage)] canonicalPath = none ∨
      fsGet [(canonicalPath, FileContent.garbage)] canonicalPath
        = some FileContent.emptyFile ∨
      fsGet [(canonicalPath, FileContent.garbage)] canonicalPath
        = some FileContent.truncated) →
      loadPy [(canonicalPath, FileContent.garbage)]
        = LoadResult.freshChain) ∧
    (fsGet [(canonicalPath, FileContent.garbage)] canonicalPath
        = some FileContent.garbage →
      (safeLoadPickle [(canonicalPath, FileContent.garbage)]
          canonicalPath 42).1 = SafeLoadResult.defaultValue ∧
      fsGet (safeLoadPickle [(canonicalPath, FileContent.garbage)]
          canonicalPath 42).2
        (canonicalPath ++ "." ++ toString 42 ++ ".bak")
        = some FileContent.garbage ∧
      fsGet (safeLoadPickle [(canonicalPath, FileContent.garbage)]
          canonicalPath 42).2 canonicalPath = none) ∧
    (fsGet [(canonicalPath, FileContent.garbage)] canonicalPath
        = some FileContent.truncated →
      safeLoadPickle [(canonicalPath, FileContent.garbage)]
          canonicalPath 42
        = (SafeLoadResult.defaultValue,
          [(canonicalPath, FileContent.garbage)])) ∧
    (∀ bc, fsGet [(canonicalPath, FileContent.garbage)] canonicalPath
        = some (FileContent.snapshot bc) →
      safeLoadPickle [(canonicalPath, FileContent.garbage)]
          canonicalPath 42
        = (SafeLoadResult.loaded bc,
          [(canonicalPath, FileContent.garbage)])) :=
  claim_C3_load [(canonicalPath, FileContent.garbage)] canonicalPath 42

/-- C4 counterexample: a failing dump inside Blockchain.save leaves
half-written (truncated) bytes at the canonical path — the method writes
directly to the target with no temporary file and no rename. -/
theorem claim_C4_counterexample :
    savePy bcW false [] = ([(canonicalPath, FileContent.truncated)], false) ∧
    fsGet (savePy bcW false []).1 canonicalPath
      = some FileContent.truncated := by
  exact ⟨rfl, rfl⟩

/-- C4 amended: Blockchain.save serializes directly to the canonical
path (a complete snapshot on success, truncated bytes on a failing
dump); only the safe_save_pickle helper writes to the .temp path first
and renames over the target on success, so it never leaves truncated
bytes at the target, leaves the target unchanged on failure, removes the
temporary file on every exit path, and touches no other path. -/
theorem claim_C4_save (bc : Blockchain) (dumpOk : Bool) (fs : Fs)
    (path : String) :
    ((savePy bc dumpOk fs).2 = dumpOk) ∧
    (fsGet (savePy bc true fs).1 canonicalPath
      = some (FileContent.snapshot bc)) ∧
    (fsGet (savePy bc false fs).1 canonicalPath
      = some FileContent.truncated) ∧
    ((safeSavePickle bc dumpOk fs path).2 = dumpOk) ∧
    (fsGet (safeSavePickle bc dumpOk fs path).1 path
      = if dumpOk then some (FileContent.snapshot bc) else fsGet fs path) ∧
    (fsGet (safeSavePickle bc dumpOk fs path).1 (path ++ ".temp") = none) ∧
    (∀ q, q ≠ path → q ≠ path ++ ".temp" →
      fsGet (safeSavePickle bc dumpOk fs path).1 q = fsGet fs q) := by
  have htmp : path ++ ".temp" ≠ path := temp_ne path
  refine ⟨by cases dumpOk <;> rfl, fsGet_fsSet_self _ _ _,
    fsGet_fsSet_self _ _ _, by cases dumpOk <;> rfl, ?_, ?_, ?_⟩
  · cases dumpOk with
    | true =>
      unfold safeSavePickle
      rw [if_pos rfl]
      simp only [fsRename, fsGet_fsSet_self, if_true]
    | false =>
      unfold safeSavePickle
      rw [if_neg (by simp)]
      rw [fsGet_fsRemove_ne _ _ _ (Ne.symm htmp),
        fsGet_fsSet_ne _ _ _ _ (Ne.symm htmp)]
      rfl
  · cases dumpOk with
    | true =>
      unfold safeSavePickle
      rw [if_pos rfl]
      simp only [fsRename, fsGet_fsSet_self]
      rw [fsGet_fsSet_ne _ _ _ _ htmp, fsGet_fsRemove_self]
    | false =>
      unfold safeSavePickle
      rw [if_neg (by simp), fsGet_fsRemove_self]
  · intro q hq hqt
    cases dumpOk with
    | true =>
      unfold safeSavePickle
      rw [if_pos rfl]
      simp only [fsRename, fsGet_fsSet_self]
      rw [fsGet_fsSet_ne _ _ _ _ hq, fsGet_fsRemove_ne _ _ _ hqt,
        fsGet_fsSet_ne _ _ _ _ hqt]
    | false =>
      unfold safeSavePickle
      rw [if_neg (by simp), fsGet_fsRemove_ne _ _ _ hqt,
        fsGet_fsSet_ne _ _ _ _ hqt]

/-- C4 witness: the amended behavior at a concrete failing save over an
empty file system. -/
theorem claim_C4_save_witness :
    ((savePy bcW false []).2 = false) ∧
    (fsGet (savePy bcW true []).1 canonicalPath
      = some (FileContent.snapshot bcW)) ∧
    (fsGet (savePy bcW false []).1 canonicalPath
      = some FileContent.truncated) ∧
    ((safeSavePickle bcW false [] canonicalPath).2 = false) ∧
    (fsGet (safeSavePickle bcW false [] canonicalPath).1 canonicalPath
      = if false then some (FileContent.snapshot bcW)
        else fsGet [] canonicalPath) ∧
    (fsGet (safeSavePickle bcW false [] canonicalPath).1
      (canonicalPath ++ ".temp") = none) ∧
    (∀ q, q ≠ canonicalPath → q ≠ canonicalPath ++ ".temp" →
      fsGet (safeSavePickle bcW false [] canonicalPath).1 q
        = fsGet [] q) :=
  claim_C4_save bcW false [] canonicalPath

/-- C10: add_record mutates the very dict object the caller passed in —
it writes the timestamp key into that object (overwriting any
caller-supplied value) and appends the same object, not a copy, to
pending_records (the heap gains no new object and no other object
changes); consequently a mutation the caller performs on the object
after submitting and before committing is what gets committed: the
mined block's records list holds that same object, which dereferences
to the mutated dict. -/
theorem claim_C10_aliasing (H : HashInput → String) (heap : Heap)
    (bc : BlockchainRef) (a : Addr) (now : String)
    (heap' : Heap) (bc' : BlockchainRef) (len : Nat)
    (ha : a < heap.length)
    (h : addRecordRef heap bc a now = (heap', bc', len)) :
    heapGet heap' a = dictSet (heapGet heap a) "timestamp" (Value.s now) ∧
    dictGet (heapGet heap' a) "timestamp" = some (Value.s now) ∧
    bc'.pending_records = bc.pending_records ++ [a] ∧
    len = bc.pending_records.length + 1 ∧
    heap'.length = heap.length ∧
    (∀ b, b ≠ a → heapGet heap' b = heapGet heap b) ∧
    (∀ (rMut : Record) (fuel ts : Nat) (bc'' : BlockchainRef)
        (flag : Bool),
      minePendingRef H (heapSet heap' a rMut) fuel ts bc'
          = some (bc'', flag) →
      ∃ nb, bc''.chain = bc'.chain ++ [nb] ∧ a ∈ nb.records ∧
        heapGet (heapSet heap' a rMut) a = rMut ∧
        Entry.dict rMut ∈ nb.records.map
          (fun x => Entry.dict (heapGet (heapSet heap' a rMut) x))) := by
  have hh : heapSet heap a
      (dictSet (heapGet heap a) "timestamp" (Value.s now)) = heap' :=
    congrArg (fun t => t.1) h
  have hb : ({ bc with pending_records := bc.pending_records ++ [a] }
      : BlockchainRef) = bc' := congrArg (fun t => t.2.1) h
  have hl : (bc.pending_records ++ [a]).length = len :=
    congrArg (fun t => t.2.2) h
  subst hh; subst hb; subst hl
  have hget := heapGet_heapSet_self heap a
    (dictSet (heapGet heap a) "timestamp" (Value.s now)) ha
  refine ⟨hget, ?_, rfl, by simp, heapSet_length heap a _, ?_, ?_⟩
  · rw [hget]
    exact dictGet_dictSet_self (heapGet heap a) "timestamp" (Value.s now)
  · intro b hb
    exact heapGet_heapSet_ne heap a b _ hb
  · intro rMut fuel ts bc'' flag hm
    have hne : ({ bc with pending_records := bc.pending_records ++ [a] }
        : BlockchainRef).pending_records ≠ [] := by simp
    obtain ⟨tip, nb, hL, hM, rfl, hflag⟩ :=
      minePendingRef_dissect H _ fuel ts _ bc'' flag hne hm
    obtain ⟨hNi, hNt, hNr, hNp⟩ :=
      mineBlockRef_fields H _ _ fuel _ nb hM
    have hamem : a ∈ nb.records := by
      rw [hNr]
      exact List.mem_append.mpr (Or.inr (List.mem_singleton.mpr rfl))
    have hgetMut : heapGet (heapSet
        (heapSet heap a (dictSet (heapGet heap a) "timestamp"
          (Value.s now))) a rMut) a = rMut :=
      heapGet_heapSet_self _ a rMut
        (by rw [heapSet_length]; exact ha)
    refine ⟨nb, rfl, hamem, hgetMut, ?_⟩
    have hmap := List.mem_map_of_mem
      (fun x => Entry.dict (heapGet (heapSet
        (heapSet heap a (dictSet (heapGet heap a) "timestamp"
          (Value.s now))) a rMut) x)) hamem
    simpa only [hgetMut] using hmap

/-- C10 witness: the concrete run on a one-object heap whose dict
carries a caller-supplied timestamp. -/
theorem claim_C10_aliasing_witness :
    heapGet heapW2 0 = dictSet (heapGet heapW 0) "timestamp"
      (Value.s "now") ∧
    dictGet (heapGet heapW2 0) "timestamp" = some (Value.s "now") ∧
    bcRefW2.pending_records = bcRefW.pending_records ++ [0] ∧
    1 = bcRefW.pending_records.length + 1 ∧
    heapW2.length = heapW.length ∧
    (∀ b, b ≠ 0 → heapGet heapW2 b = heapGet heapW b) ∧
    (∀ (rMut : Record) (fuel ts : Nat) (bc'' : BlockchainRef)
        (flag : Bool),
      minePendingRef Hc (heapSet heapW2 0 rMut) fuel ts bcRefW2
          = some (bc'', flag) →
      ∃ nb, bc''.chain = bcRefW2.chain ++ [nb] ∧ 0 ∈ nb.records ∧
        heapGet (heapSet heapW2 0 rMut) 0 = rMut ∧
        Entry.dict rMut ∈ nb.records.map
          (fun x => Entry.dict (heapGet (heapSet heapW2 0 rMut) x))) :=
  claim_C10_aliasing Hc heapW bcRefW 0 "now" heapW2 bcRefW2 1
    (by decide) (by decide)

end EHR
